import Mathlib

/-!
# Verification of the AI-analyst data-profiling / AutoML pipeline

This development shallowly embeds the parts of the repository that the
checked claims are about:

* the React frontend's prediction-input state machine
  (`frontend/src/components/ModelPredictions.tsx`: `loadModelFeatures`,
  `handleAddRow`, `handleInputChange`, `renderInputField`) and the API
  layer's training-call error handling
  (`frontend/src/services/api` `trainModel` timeout, and the `handleTrain`
  catch block of the training component);
* the backend AutoML core (preprocessing pipeline builder, model trainer,
  prediction engine).  The backend service itself is not part of the
  source tree (only its frontend callers and documentation are), so those
  definitions are modelled from the specification, as marked in their
  doc comments.

JavaScript strings are embedded as lists of characters (`Str`); JavaScript
objects used as string-keyed rows are embedded as total functions from
keys to string values, with absent keys reading as the empty string.
-/

/-- JavaScript strings are modelled as lists of characters. -/
abbrev Str := List Char

/-- Convert a Lean string literal to the character-list embedding. -/
def strL (s : String) : Str := s.data

/-- The one-character string "_" used to build one-hot column names. -/
def und : Str := ['_']

/-- The string value "0" stored in cleared one-hot columns. -/
def zeroS : Str := ['0']

/-- The string value "1" stored in a selected one-hot column. -/
def oneS : Str := ['1']

/-- The empty string, also the value read from an absent object key. -/
def empS : Str := []

/-- Boolean prefix test on character lists, the embedding of
JavaScript `String.prototype.startsWith`. -/
def isPre : Str → Str → Bool
  | [], _ => true
  | _ :: _, [] => false
  | a :: p, b :: l => a = b && isPre p l

/-- Substring test on character lists, the embedding of
JavaScript `String.prototype.includes`. -/
def containsSub : Str → Str → Bool
  | [], sub => sub.isEmpty
  | c :: rest, sub => isPre sub (c :: rest) || containsSub rest sub

/-- The replacement `value.replace(/ /g, '_')` acts on each character: a
space becomes an underscore (ModelPredictions.tsx line 143). -/
def spaceToUnd (c : Char) : Char := if c = ' ' then '_' else c

/-- The replacement `name.replace(/_/g, ' ')` acts on each character: an
underscore becomes a space (ModelPredictions.tsx lines 204 and 233). -/
def undToSpace (c : Char) : Char := if c = '_' then ' ' else c

/-- Encoding of a selected category value into the one-hot column suffix:
every space is replaced by an underscore (`value.replace(/ /g, '_')`,
ModelPredictions.tsx line 143). -/
def encodeCategory (v : Str) : Str := v.map spaceToUnd

/-- Decoding of the selected category from a one-hot column name that starts
with `base ++ "_"`: the code strips that prefix
(`f.name.replace(baseColumn + "_", "")`, a first-occurrence replace that
removes the prefix here) and replaces every underscore with a space
(ModelPredictions.tsx lines 200-207). -/
def decodeSelected (base name : Str) : Str :=
  (name.drop (base.length + 1)).map undToSpace

/-- Client-side timeout, in milliseconds, passed by `trainModel` in
`frontend/src/services/api` to the POST `/train/{sessionId}` call
(`timeout: 300000, // 5 minutes timeout for model training`). -/
def trainTimeoutMs : Nat := 300000

/-- Outcome categories distinguished by the `handleTrain` catch block of the
training component: the timeout branch versus the generic failure branch. -/
inductive TrainCallOutcome where
  | timedOut
  | trainingFailed
deriving DecidableEq

/-- The branch decision of `handleTrain`'s catch block
(`if (error.code === 'ECONNABORTED' || error.message.includes('timeout'))`):
a timed-out training call is routed to a dedicated timeout branch, distinct
from the generic failure branch. -/
def classifyTrainError (code message : Str) : TrainCallOutcome :=
  if code = strL "ECONNABORTED" ∨ containsSub message (strL "timeout") = true then
    .timedOut
  else
    .trainingFailed

/-- One entry of the model-features list returned by
`getModelFeatures` (the `ModelFeature` interface of `types/index.ts`). -/
structure Feature where
  name : Str
  dtype : Str
  unique_count : Nat
  sample_values : List Str
  null_percentage : Nat
deriving DecidableEq

/-- The dtype string tested by the component
(`feature.dtype === 'categorical'`). -/
def catS : Str := strL "categorical"

/-- A prediction-input row: a JavaScript object keyed by column name,
modelled as a total function with absent keys reading as `empS`. -/
def Row := Str → Str

/-- JavaScript object property assignment `row[k] = v`. -/
def upd (row : Row) (k v : Str) : Row :=
  fun x => if x = k then v else row x

/-- A categorical feature with a nonempty list of sample values: the guard
`feature.dtype === 'categorical' && feature.sample_values.length > 0`. -/
def IsBase (f : Feature) : Prop := f.dtype = catS ∧ f.sample_values ≠ []

instance (f : Feature) : Decidable (IsBase f) := by
  unfold IsBase; infer_instance

/-- The names of the listed model features. -/
def featNames (mf : List Feature) : List Str := mf.map (·.name)

/-- The one-hot column name `base_category` built by the component. -/
def colName (base c : Str) : Str := base ++ und ++ c

/-- The clearing loop of `handleInputChange` (ModelPredictions.tsx lines
135-139): every listed feature whose name starts with `base ++ "_"` has its
column set to `'0'`. -/
def clearGroup (mf : List Feature) (base : Str) (row : Row) : Row :=
  mf.foldl (fun r f => if isPre (base ++ und) f.name then upd r f.name zeroS else r) row

/-- The handler `handleInputChange(rowIndex, field, value)` of
ModelPredictions.tsx (lines 123-153), acting on one row: if `field` names a categorical feature
with sample values, all listed columns of that group are reset to `'0'` and,
for a nonempty value, the column `field ++ "_" ++ value.replace(/ /g,'_')`
is set to `'1'`; otherwise the field is written directly. -/
def handleInputChange (mf : List Feature) (row : Row) (field value : Str) : Row :=
  match mf.find? (fun f => decide (f.name = field)) with
  | some feature =>
      if feature.dtype = catS ∧ feature.sample_values ≠ [] then
        let cleared := clearGroup mf field row
        if value ≠ [] then upd cleared (colName field (encodeCategory value)) oneS
        else cleared
      else upd row field value
  | none => upd row field value

/-- The per-feature initialization step of `loadModelFeatures`
(lines 62-73): a categorical feature contributes a `'0'` entry for each
one-hot column `name_category`; any other feature contributes an empty
string under its own name. -/
def initFeature (r : Row) (f : Feature) : Row :=
  if f.dtype = catS then
    f.sample_values.foldl (fun r c => upd r (colName f.name c) zeroS) r
  else upd r f.name empS

/-- The initial input row built by `loadModelFeatures` (and `handleAddRow`)
from the features list. -/
def initRow (mf : List Feature) : Row :=
  mf.foldl initFeature (fun _ => empS)

/-- Run a sequence of `handleInputChange` calls, each a (field, value)
pair, against one input row. -/
def runCalls (mf : List Feature) (calls : List (Str × Str)) (row : Row) : Row :=
  calls.foldl (fun r call => handleInputChange mf r call.1 call.2) row

/-- Column `base_c` of base feature `b` holds the string '1'. -/
def SelectedAt (row : Row) (b : Feature) (c : Str) : Prop :=
  row (colName b.name c) = oneS

/-- At most one of the one-hot columns `b.name_c`, `c` ranging over the
sample values of `b`, holds '1'. -/
def AtMostOneSelected (row : Row) (b : Feature) : Prop :=
  ∀ c₁ ∈ b.sample_values, ∀ c₂ ∈ b.sample_values,
    SelectedAt row b c₁ → SelectedAt row b c₂ → c₁ = c₂

/-- The claimed invariant: every categorical base feature of the list has at
most one of its one-hot columns set to '1'. -/
def OneHotInv (mf : List Feature) (row : Row) : Prop :=
  ∀ b ∈ mf, IsBase b → AtMostOneSelected row b

/-- Name hygiene of the features list under which the one-hot invariant is
provable: feature names are duplicate-free; every one-hot column of a base
feature is itself listed (so the clearing loop reaches it); no base name
extended by an underscore prefixes another base's name; and no category
contains a space. -/
def Hygienic (mf : List Feature) : Prop :=
  (featNames mf).Nodup ∧
  (∀ b ∈ mf, IsBase b → ∀ c ∈ b.sample_values, colName b.name c ∈ featNames mf) ∧
  (∀ b ∈ mf, ∀ b' ∈ mf, IsBase b → IsBase b' → b.name ≠ b'.name →
      isPre (b.name ++ und) b'.name = false) ∧
  (∀ b ∈ mf, IsBase b → ∀ c ∈ b.sample_values, ' ' ∉ c)

/-- The calls the component itself issues to `handleInputChange`: either a
selection on a categorical base feature (its name, with one of its sample
values or the empty string from the placeholder option), or a write to a
non-categorical field whose name does not extend any base feature's name by
an underscore. -/
def OkCall (mf : List Feature) (call : Str × Str) : Prop :=
  (∃ b ∈ mf, IsBase b ∧ call.1 = b.name ∧ (call.2 ∈ b.sample_values ∨ call.2 = [])) ∨
  ((∀ f ∈ mf, f.name = call.1 → ¬ IsBase f) ∧
   (∀ b ∈ mf, IsBase b → isPre (b.name ++ und) call.1 = false))

instance (row : Row) (b : Feature) (c : Str) : Decidable (SelectedAt row b c) := by
  unfold SelectedAt; infer_instance

instance (row : Row) (b : Feature) : Decidable (AtMostOneSelected row b) := by
  unfold AtMostOneSelected; infer_instance

instance (mf : List Feature) : Decidable (Hygienic mf) := by
  unfold Hygienic; infer_instance

instance (mf : List Feature) (call : Str × Str) : Decidable (OkCall mf call) := by
  unfold OkCall; infer_instance

/-! ## The backend AutoML core, modelled from the spec

The backend service (schema inference, preprocessing pipeline builder,
model trainer, prediction engine) is not part of the source tree — only its
frontend callers (`services/api`), its response types (`types/index.ts`)
and its documentation are.  The definitions below are therefore modelled
from the specification (§3, §4.3, §4.4, §4.5), as noted per definition. -/

/-- A raw cell of a tabular record: a numeric value, a string value, or a
missing value (null). -/
inductive CellValue where
  | num (q : ℚ)
  | str (s : String)
  | null
deriving DecidableEq

/-- A raw-feature record, as sent in a prediction request: a string-keyed
association of cells.  A key can be absent altogether, which is distinct
from being present with a null cell. -/
abbrev Record := List (String × CellValue)

/-- Look up a key in a record. -/
def rget (r : Record) (c : String) : Option CellValue :=
  (r.find? (fun p => decide (p.1 = c))).map (·.2)

/-- Numeric reading of a cell: only an actual numeric cell parses. -/
def numVal : CellValue → Option ℚ
  | .num q => some q
  | _ => none

/-- Modelled from the spec (§4.3): categorical reading of a cell; a null
cell is imputed with the literal "missing" constant, and a numeric cell is
read through its decimal rendering. -/
def catVal : CellValue → String
  | .str s => s
  | .null => "missing"
  | .num q => toString q

/-- Insert into a sorted list of rationals. -/
def insertQ (x : ℚ) : List ℚ → List ℚ
  | [] => [x]
  | y :: ys => if x ≤ y then x :: y :: ys else y :: insertQ x ys

/-- Insertion sort on rationals, used by the median. -/
def sortQ (l : List ℚ) : List ℚ := l.foldr insertQ []

/-- Modelled from the spec (§4.3): the median of a list of values — the
middle element of the sorted list, or the average of the two middle
elements for an even length (0 for an empty list). -/
def medianQ (l : List ℚ) : ℚ :=
  let s := sortQ l
  if s.length = 0 then 0
  else if s.length % 2 = 1 then s.getD (s.length / 2) 0
  else (s.getD (s.length / 2 - 1) 0 + s.getD (s.length / 2) 0) / 2

/-- Mean of a list of rationals (0 for an empty list). -/
def meanQ (l : List ℚ) : ℚ := l.sum / (l.length : ℚ)

/-- Population variance of a list of rationals. -/
def varQ (l : List ℚ) : ℚ :=
  (l.map (fun x => (x - meanQ l) ^ 2)).sum / (l.length : ℚ)

/-- Fitted statistics of one numerical feature: the imputer statistic (the
training-split median) and the scaler statistics (training-split mean and
variance of the imputed column). -/
structure NumStat where
  median : ℚ
  mean : ℚ
  variance : ℚ
deriving DecidableEq

/-- Fitted statistics of one categorical feature: the category vocabulary
observed in the training split (after "missing" imputation). -/
structure CatStat where
  vocab : List String
deriving DecidableEq

/-- Modelled from the spec (§3, §4.3): a deterministic, serializable
preprocessing transform keyed by the training-time feature set — per
numerical column the imputer statistic and scaler statistics, per
categorical column the imputer constant's vocabulary giving the one-hot
column names. -/
structure PreprocessingPipeline where
  numStats : List (String × NumStat)
  catStats : List (String × CatStat)
deriving DecidableEq

/-- The numerical readings of one column across a list of records. -/
def columnNums (rows : List Record) (c : String) : List (Option ℚ) :=
  rows.map (fun r => (rget r c).bind numVal)

/-- The categorical readings of one column across a list of records, with
null cells imputed as "missing". -/
def columnCats (rows : List Record) (c : String) : List String :=
  rows.map (fun r => catVal ((rget r c).getD .null))

/-- Modelled from the spec (§4.3): fit the statistics of one numerical
column — median of the present values, then mean and variance of the
median-imputed column. -/
def fitNumStat (vals : List (Option ℚ)) : NumStat :=
  let present := vals.filterMap id
  let m := medianQ present
  let imputed := vals.map (fun v => v.getD m)
  ⟨m, meanQ imputed, varQ imputed⟩

/-- Modelled from the spec (§4.3): fit the whole pipeline on the training
split — one `NumStat` per numerical feature, one vocabulary per
categorical feature, in the given column order. -/
def fitPipeline (numFeat catFeat : List String) (trainRows : List Record) :
    PreprocessingPipeline :=
  ⟨numFeat.map (fun c => (c, fitNumStat (columnNums trainRows c))),
   catFeat.map (fun c => (c, ⟨(columnCats trainRows c).dedup⟩))⟩

/-- The encoded feature names of a pipeline: the numerical columns in
order, then each categorical column expanded to its one-hot columns
`name_category` over the fitted vocabulary. -/
def pipelineFeatureNames (P : PreprocessingPipeline) : List String :=
  P.numStats.map (·.1) ++
    (P.catStats.map (fun p => p.2.vocab.map (fun cat => p.1 ++ "_" ++ cat))).flatten

/-- The base (raw) feature names a record must supply: every fitted
numerical and categorical column. -/
def baseFeatures (P : PreprocessingPipeline) : List String :=
  P.numStats.map (·.1) ++ P.catStats.map (·.1)

/-- Imputation of a numeric cell with the frozen training statistic: a
missing value reads as the fitted median. -/
def imputeCell (st : NumStat) (v : CellValue) : ℚ :=
  (numVal v).getD st.median

/-- Modelled from the spec (§4.3): the numerical transform — impute with
the frozen median, then standardize with the frozen training statistics.
The centering by the training mean is represented exactly; the division by
the standard deviation (√variance, irrational in general) is not
representable over ℚ and no claim depends on it, so the transform carries
the centered value while the fitted variance is kept in the statistic. -/
def transformNumCell (st : NumStat) (v : CellValue) : ℚ :=
  imputeCell st v - st.mean

/-- Modelled from the spec (§4.3): one-hot encoding of a categorical cell
against the frozen vocabulary; a category not in the vocabulary yields an
all-zero group (never raises). -/
def oneHotGroup (c : String) (st : CatStat) (v : CellValue) : List (String × ℚ) :=
  st.vocab.map (fun cat => (c ++ "_" ++ cat, if catVal v = cat then (1 : ℚ) else 0))

/-- Typed errors raised by the prediction engine (§7). -/
inductive PredError where
  | missingFeature (name : String)
  | modelNotFound (model_id : String)
  | emptyProbability
deriving DecidableEq

deriving instance DecidableEq for Except

/-- Map a fallible step over a list, stopping at the first error. -/
def mapME (f : α → Except ε β) : List α → Except ε (List β)
  | [] => .ok []
  | a :: as =>
    match f a with
    | .error e => .error e
    | .ok b =>
      match mapME f as with
      | .error e => .error e
      | .ok bs => .ok (b :: bs)

/-- Modelled from the spec (§4.5): apply the frozen pipeline to one raw
record.  A base feature absent from the record fails validation with
`MissingFeatureError`; a present-but-null value is filled by the frozen
imputation statistic; categorical values are one-hot encoded against the
frozen vocabulary (unknown categories encode to all zeros). -/
def transformRecord (P : PreprocessingPipeline) (r : Record) :
    Except PredError (List (String × ℚ)) :=
  match mapME (fun p =>
      match rget r p.1 with
      | none => .error (PredError.missingFeature p.1)
      | some v => .ok (p.1, transformNumCell p.2 v)) P.numStats with
  | .error e => .error e
  | .ok numPart =>
    match mapME (fun p =>
        match rget r p.1 with
        | none => .error (PredError.missingFeature p.1)
        | some v => .ok (oneHotGroup p.1 p.2 v)) P.catStats with
    | .error e => .error e
    | .ok catParts => .ok (numPart ++ catParts.flatten)

/-- Task type of a training call (§3). -/
inductive TaskType where
  | classification
  | regression
deriving DecidableEq

/-- The closed algorithm variants (§4.4, §9). -/
inductive Algorithm where
  | random_forest
  | xgboost
  | logistic_regression
  | linear_regression
deriving DecidableEq

/-- Typed errors raised by the model trainer (§4.4, §7). -/
inductive TrainError where
  | invalidTarget
  | insufficientData
  | unsupportedConfiguration
deriving DecidableEq

/-- Modelled from the spec (§4.4): which algorithm/task pairings are
supported — the tree ensembles for either task, logistic regression for
classification only, linear regression for regression only. -/
def supportedPair : Algorithm → TaskType → Bool
  | .random_forest, _ => true
  | .xgboost, _ => true
  | .logistic_regression, .classification => true
  | .logistic_regression, .regression => false
  | .linear_regression, .regression => true
  | .linear_regression, .classification => false

/-- The target-cell reading of a record: the target column's cell, with an
absent key reading as null. -/
def tgtOf (target : String) (r : Record) : CellValue :=
  (rget r target).getD .null

/-- The distinct target classes of a dataset, in order of first
appearance. -/
def classesOf (target : String) (rows : List Record) : List CellValue :=
  (rows.map (tgtOf target)).dedup

/-- The rows of one target class. -/
def groupOf (target : String) (rows : List Record) (c : CellValue) : List Record :=
  rows.filter (fun r => decide (tgtOf target r = c))

/-- The held-out test share of `n` rows: ⌈n/5⌉, i.e. 20% rounded up. -/
def ceil20 (n : Nat) : Nat := (n + 4) / 5

/-- Modelled from the spec (§4.4): the stratified 80/20 split used for
classification — each target class is split 80/20 separately so the class
distribution is preserved in both parts.  The fixed random seed makes the
split deterministic; it is modelled by the deterministic within-class
order. -/
def stratSplit (target : String) (rows : List Record) :
    List Record × List Record :=
  (((classesOf target rows).map (fun c =>
      (groupOf target rows c).take
        ((groupOf target rows c).length - ceil20 (groupOf target rows c).length))).flatten,
   ((classesOf target rows).map (fun c =>
      (groupOf target rows c).drop
        ((groupOf target rows c).length - ceil20 (groupOf target rows c).length))).flatten)

/-- Modelled from the spec (§4.4): the 80/20 split — stratified by target
class for classification, unstratified for regression.  The regression
split selects positions only (the last ⌈n/5⌉ rows under the fixed-seed
deterministic order), independent of any cell value. -/
def splitData : TaskType → String → List Record → List Record × List Record
  | .classification, target, rows => stratSplit target rows
  | .regression, _, rows =>
      (rows.take (rows.length - ceil20 rows.length),
       rows.drop (rows.length - ceil20 rows.length))

/-- Modelled from the spec (§4.4): the minimum viable split size below
which training fails with `InsufficientDataError`.  The spec does not fix
the constant; 10 keeps both split parts nonempty. -/
def minViableRows : Nat := 10

/-- The number of distinct values in the target column (absent keys read
as null). -/
def targetDistinctCount (rows : List Record) (target : String) : Nat :=
  ((rows.map (tgtOf target)).dedup).length

/-- The feature columns used for training: the given columns minus the
target column and the excluded columns (§4.3). -/
def featFilter (cols : List String) (target : String) (excl : List String) :
    List String :=
  cols.filter (fun c => decide (c ≠ target ∧ c ∉ excl))

/-- Modelled from the spec (§3, §4.4): the persisted result of a training
call — task, algorithm, target, exclusions, the encoded feature names and
the frozen pipeline, plus the split sizes.  The fitted estimator itself is
an opaque external collaborator and is not part of the artifact model. -/
structure ModelArtifact where
  task_type : TaskType
  algorithm : Algorithm
  target_column : String
  excluded_columns : List String
  feature_names : List String
  pipeline : PreprocessingPipeline
  train_count : Nat
  test_count : Nat
deriving DecidableEq

/-- Modelled from the spec (§4.4): the model trainer.  Validation (in the
spec's order): a target with at most one distinct value fails with
`InvalidTargetError`; too few rows fail with `InsufficientDataError`; an
unsupported algorithm/task pairing fails with
`UnsupportedConfigurationError`.  Otherwise the dataset is split 80/20,
the pipeline is fit on the training split only, and the artifact is
produced. -/
def trainModel (numCols catCols : List String) (target : String)
    (task : TaskType) (alg : Algorithm) (excl : List String)
    (rows : List Record) : Except TrainError ModelArtifact :=
  if targetDistinctCount rows target ≤ 1 then .error .invalidTarget
  else if rows.length < minViableRows then .error .insufficientData
  else if supportedPair alg task = false then .error .unsupportedConfiguration
  else
    let nf := featFilter numCols target excl
    let cf := featFilter catCols target excl
    let s := splitData task target rows
    let P := fitPipeline nf cf s.1
    .ok ⟨task, alg, target, excl, pipelineFeatureNames P, P, s.1.length, s.2.length⟩

/-- A prediction value: a number for regression, a class label for
classification (the `(number | string)` of the response type). -/
inductive PredValue where
  | num (q : ℚ)
  | label (s : String)
deriving DecidableEq

/-- Modelled from the spec (§4.5): the fitted estimator behind the
prediction engine — a classifier exposes per-class probabilities for an
encoded feature vector; a regressor exposes a point prediction and a
residual estimate feeding the deterministic confidence proxy. -/
inductive MLEstimator where
  | classifier (predictProba : List ℚ → List (String × ℚ))
  | regressor (predictVal : List ℚ → ℚ) (residualEstimate : ℚ)

/-- A persisted (pipeline, estimator) pair, loaded by model identifier. -/
structure PredictModel where
  pipeline : PreprocessingPipeline
  est : MLEstimator

/-- The first element of highest probability (ties keep the earlier
element, like an argmax over the probability vector). -/
def argmaxP : List (String × ℚ) → Option (String × ℚ)
  | [] => none
  | p :: ps =>
    match argmaxP ps with
    | none => some p
    | some q => some (if q.2 > p.2 then q else p)

/-- Modelled from the spec (§4.5): score one raw record — apply the frozen
pipeline, then the estimator.  A classifier predicts the highest-probability
class with that probability as confidence; a regressor predicts the point
value with the normalized-inverse-residual confidence proxy
`1 / (1 + |residual estimate|)`. -/
def predictOne (m : PredictModel) (r : Record) : Except PredError (PredValue × ℚ) :=
  match transformRecord m.pipeline r with
  | .error e => .error e
  | .ok row =>
    match m.est with
    | .classifier f =>
      match argmaxP (f (row.map (·.2))) with
      | none => .error .emptyProbability
      | some lp => .ok (.label lp.1, lp.2)
    | .regressor f resid => .ok (.num (f (row.map (·.2))), 1 / (1 + |resid|))

/-- The prediction response: a list of predictions and a list of confidence
scores (`PredictionResponse` of the external interface). -/
structure PredictionResponse where
  predictions : List PredValue
  confidence_scores : List ℚ
deriving DecidableEq

/-- Modelled from the spec (§4.5, §6): score a batch of records in order,
producing one prediction and one confidence score per input record. -/
def predictBatch (m : PredictModel) (records : List Record) :
    Except PredError PredictionResponse :=
  match mapME (predictOne m) records with
  | .error e => .error e
  | .ok prs => .ok ⟨prs.map (·.1), prs.map (·.2)⟩

/-- Validity of the estimator's probability outputs: a classifier returns a
nonempty probability vector of nonnegative entries summing to 1 (a
probability distribution over classes); a regressor needs no condition. -/
def EstValid : MLEstimator → Prop
  | .classifier f =>
      ∀ vec, f vec ≠ [] ∧ (∀ p ∈ f vec, 0 ≤ p.2) ∧ ((f vec).map (·.2)).sum = 1
  | .regressor _ _ => True

/-- Look up the fitted statistic of a numerical feature in a pipeline. -/
def statOf (P : PreprocessingPipeline) (c : String) : Option NumStat :=
  (P.numStats.find? (fun p => decide (p.1 = c))).map (·.2)

/-! ### Concrete instances used by the witnesses and the counterexample -/

/-- A 10-row regression dataset: numerical column "x" with two missing
values among the first eight rows, target "y" with distinct values. -/
def dsReg : List Record :=
  [[("x", .num 1), ("y", .num 1)],
   [("x", .num 2), ("y", .num 2)],
   [("x", .num 3), ("y", .num 3)],
   [("x", .num 4), ("y", .num 4)],
   [("x", .null), ("y", .num 5)],
   [("x", .null), ("y", .num 6)],
   [("x", .num 6), ("y", .num 7)],
   [("x", .num 8), ("y", .num 8)],
   [("x", .num 9), ("y", .num 9)],
   [("x", .num 10), ("y", .num 10)]]

/-- The training call on `dsReg` used by the C2 witness. -/
def dsRegCall : Except TrainError ModelArtifact :=
  trainModel ["x", "y"] [] "y" .regression .linear_regression [] dsReg

/-- The artifact produced by `dsRegCall` (with an inert fallback for the
error case, which does not occur). -/
def dsRegArt : ModelArtifact :=
  match dsRegCall with
  | .ok a => a
  | .error _ => ⟨.regression, .linear_regression, "", [], [], ⟨[], []⟩, 0, 0⟩

/-- A 10-row dataset whose target column "t" is constant. -/
def dsConst : List Record :=
  List.replicate 10 [("t", CellValue.num 1)]

/-- A 10-row classification dataset: target "c" has five rows of class "a"
and five of class "b". -/
def dsCls : List Record :=
  List.replicate 5 [("c", CellValue.str "a")] ++
    List.replicate 5 [("c", CellValue.str "b")]

/-- A fitted pipeline with one numerical feature ("age") and one
categorical feature ("region" with vocabulary {North, South}), as in the
spec's Scenario B. -/
def pScenB : PreprocessingPipeline :=
  ⟨[("age", ⟨0, 0, 0⟩)], [("region", ⟨["North", "South"]⟩)]⟩

/-- A record that supplies both base features, with the unseen category
"East" for "region". -/
def rEast : Record := [("age", .num 1), ("region", .str "East")]

/-- A classifier model over a one-feature pipeline whose probability
vector is the constant distribution putting mass 1 on "yes". -/
def mCls : PredictModel :=
  ⟨⟨[("x", ⟨0, 0, 0⟩)], []⟩, .classifier (fun _ => [("yes", 1)])⟩

/-- The features list with only the base entry for "region" — the shape
`loadModelFeatures`'s initialization assumes (it builds the one-hot columns
from base entries). -/
def mfBaseOnly : List Feature :=
  [⟨strL "region", catS, 2, [strL "North", strL "South"], 0⟩]

/-- The features list that also lists the one-hot columns themselves, so
the clearing loop of `handleInputChange` can reach them. -/
def mfListed : List Feature :=
  [⟨strL "region", catS, 2, [strL "North", strL "South"], 0⟩,
   ⟨strL "region_North", strL "numerical", 0, [], 0⟩,
   ⟨strL "region_South", strL "numerical", 0, [], 0⟩]

/-- Select "North", then select "South" — two successive selections on the
same categorical base feature, exactly as the dropdown issues them. -/
def selectTwice : List (Str × Str) :=
  [(strL "region", strL "North"), (strL "region", strL "South")]

/-- The input row after initializing from `mfBaseOnly` and selecting
"North" then "South". -/
def rowTwice : Row := runCalls mfBaseOnly selectTwice (initRow mfBaseOnly)

/-! ## General-purpose lemmas -/

theorem undToSpace_spaceToUnd (c : Char) :
    undToSpace (spaceToUnd c) = undToSpace c := by
  unfold spaceToUnd undToSpace
  by_cases h : c = ' ' <;> simp [h]

theorem map_undToSpace_eq_self_iff (v : Str) :
    v.map undToSpace = v ↔ '_' ∉ v := by
  induction v with
  | nil => simp
  | cons c v ih =>
    simp only [List.map_cons, List.cons.injEq, List.mem_cons]
    constructor
    · rintro ⟨h1, h2⟩
      refine not_or.mpr ⟨?_, (ih.mp h2)⟩
      intro hc
      rw [← hc] at h1
      simp [undToSpace] at h1
    · intro h
      rcases not_or.mp h with ⟨h1, h2⟩
      refine ⟨?_, ih.mpr h2⟩
      simp [undToSpace]
      intro hc
      exact absurd hc.symm h1

theorem upd_apply (row : Row) (k v x : Str) :
    upd row k v x = if x = k then v else row x := rfl

theorem foldl_inv {α β : Type _} (P : α → Prop) (f : α → β → α) :
    ∀ (l : List β) (a : α), (∀ b ∈ l, ∀ x, P x → P (f x b)) → P a → P (l.foldl f a) := by
  intro l
  induction l with
  | nil => intro a _ ha; exact ha
  | cons b l ih =>
    intro a hstep ha
    exact ih (f a b) (fun x hx y hy => hstep x (List.mem_cons_of_mem b hx) y hy)
      (hstep b (List.mem_cons_self b l) a ha)

theorem isPre_append_self (p t : Str) : isPre p (p ++ t) = true := by
  induction p with
  | nil => rfl
  | cons a p ih => simp [isPre, ih]

theorem isPre_iff_take (p : Str) : ∀ l : Str, isPre p l = true ↔ l.take p.length = p := by
  induction p with
  | nil => intro l; simp [isPre]
  | cons a p ih =>
    intro l
    cases l with
    | nil => simp [isPre]
    | cons b l =>
      rw [show isPre (a :: p) (b :: l) = (decide (a = b) && isPre p l) from rfl]
      simp only [Bool.and_eq_true, decide_eq_true_eq, ih, List.length_cons,
        List.take_succ_cons, List.cons.injEq]
      exact and_congr_left' eq_comm

theorem colName_inj_right {base c₁ c₂ : Str} (h : colName base c₁ = colName base c₂) :
    c₁ = c₂ := by
  unfold colName at h
  exact List.append_cancel_left h

theorem take_append_of_le {n : Nat} :
    ∀ {l₁ l₂ : List Char}, n ≤ l₁.length → (l₁ ++ l₂).take n = l₁.take n := by
  induction n with
  | zero => intro l₁ l₂ _; simp
  | succ n ih =>
    intro l₁ l₂ hle
    cases l₁ with
    | nil => simp at hle
    | cons a l₁ =>
      simp only [List.cons_append, List.take_succ_cons, List.cons.injEq]
      exact ⟨trivial, ih (Nat.succ_le_succ_iff.mp hle)⟩

theorem take_of_append_eq {l₁ l₂ l₃ l₄ : List Char} (h : l₁ ++ l₂ = l₃ ++ l₄)
    (hle : l₁.length ≤ l₃.length) : l₃.take l₁.length = l₁ := by
  induction l₁ generalizing l₃ with
  | nil => simp
  | cons a l₁ ih =>
    cases l₃ with
    | nil => simp at hle
    | cons c l₃ =>
      simp only [List.cons_append, List.cons.injEq] at h
      obtain ⟨rfl, h2⟩ := h
      simp only [List.length_cons, List.take_succ_cons, List.cons.injEq]
      exact ⟨trivial, ih h2 (Nat.succ_le_succ_iff.mp hle)⟩

/-- A one-hot column name of one base feature cannot coincide with a
one-hot column name of a different base feature, provided neither base
name extended by an underscore prefixes the other. -/
theorem colName_eq_colName_base_eq {b₀ b x y : Str} (h : colName b₀ x = colName b y)
    (h1 : isPre (b₀ ++ und) b = false) (h2 : isPre (b ++ und) b₀ = false) :
    b₀ = b := by
  unfold colName at h
  rcases Nat.lt_trichotomy b₀.length b.length with hlt | heq | hgt
  · exfalso
    have hle : (b₀ ++ und).length ≤ (b ++ und).length := by simp [und]; omega
    have htake : (b ++ und).take (b₀ ++ und).length = b₀ ++ und :=
      take_of_append_eq h hle
    have hle2 : (b₀ ++ und).length ≤ b.length := by simp [und]; omega
    rw [take_append_of_le hle2] at htake
    have hpre : isPre (b₀ ++ und) b = true := (isPre_iff_take _ _).mpr htake
    rw [hpre] at h1
    cases h1
  · have hlen : (b₀ ++ und).length = (b ++ und).length := by simp [und, heq]
    exact (List.append_inj (List.append_inj h hlen).1 (by simpa using heq)).1
  · exfalso
    have hle : (b ++ und).length ≤ (b₀ ++ und).length := by simp [und]; omega
    have htake : (b₀ ++ und).take (b ++ und).length = b ++ und :=
      take_of_append_eq h.symm hle
    have hle2 : (b ++ und).length ≤ b₀.length := by simp [und]; omega
    rw [take_append_of_le hle2] at htake
    have hpre : isPre (b ++ und) b₀ = true := (isPre_iff_take _ _).mpr htake
    rw [hpre] at h2
    cases h2

/-- The names list distributes over cons. -/
theorem featNames_cons (f : Feature) (mf : List Feature) :
    featNames (f :: mf) = f.name :: featNames mf := rfl

/-- If the feature names are duplicate-free, `find?` by a member's name
returns that member. -/
theorem find_name_of_nodup {mf : List Feature} (hnd : (featNames mf).Nodup)
    {b : Feature} (hb : b ∈ mf) :
    mf.find? (fun f => decide (f.name = b.name)) = some b := by
  induction mf with
  | nil => cases hb
  | cons f mf ih =>
    have hnd2 : f.name ∉ featNames mf ∧ (featNames mf).Nodup := by
      rw [featNames_cons] at hnd
      exact List.nodup_cons.mp hnd
    rcases List.mem_cons.mp hb with rfl | hbmem
    · simp [List.find?]
    · have hne : f.name ≠ b.name := by
        intro he
        apply hnd2.1
        rw [he]
        exact List.mem_map_of_mem (·.name) hbmem
      simp only [List.find?]
      rw [decide_eq_false hne]
      exact ih hnd2.2 hbmem

theorem nodup_names_inj {mf : List Feature} (hnd : (featNames mf).Nodup)
    {b b' : Feature} (hb : b ∈ mf) (hb' : b' ∈ mf) (h : b.name = b'.name) :
    b = b' := by
  have h1 := find_name_of_nodup hnd hb
  have h2 := find_name_of_nodup hnd hb'
  rw [h] at h1
  rw [h1] at h2
  exact Option.some.inj h2

theorem clearGroup_apply (mf : List Feature) (base : Str) :
    ∀ (row : Row) (k : Str),
      clearGroup mf base row k =
        if k ∈ featNames mf ∧ isPre (base ++ und) k = true then zeroS else row k := by
  induction mf with
  | nil =>
    intro row k
    rw [if_neg]
    · rfl
    · rintro ⟨hmem, -⟩
      simp [featNames] at hmem
  | cons f mf ih =>
    intro row k
    have hstep : clearGroup (f :: mf) base row =
        clearGroup mf base
          (if isPre (base ++ und) f.name = true then upd row f.name zeroS else row) := rfl
    rw [hstep, ih]
    by_cases hk : isPre (base ++ und) k = true
    · by_cases hmem : k ∈ featNames mf
      · have hcond : k ∈ featNames (f :: mf) ∧ isPre (base ++ und) k = true :=
          ⟨by rw [featNames_cons]; exact List.mem_cons_of_mem _ hmem, hk⟩
        rw [if_pos ⟨hmem, hk⟩, if_pos hcond]
      · by_cases hkf : k = f.name
        · have hcond : k ∈ featNames (f :: mf) ∧ isPre (base ++ und) k = true := by
            refine ⟨?_, hk⟩
            rw [featNames_cons, hkf]
            exact List.mem_cons_self f.name _
          rw [if_neg (fun hc => hmem hc.1),
            if_pos (show isPre (base ++ und) f.name = true from hkf ▸ hk),
            upd_apply, if_pos hkf, if_pos hcond]
        · have hinner :
              (if isPre (base ++ und) f.name = true then upd row f.name zeroS else row) k
                = row k := by
            by_cases hfp : isPre (base ++ und) f.name = true
            · rw [if_pos hfp, upd_apply, if_neg hkf]
            · rw [if_neg hfp]
          have hncons : ¬ (k ∈ featNames (f :: mf) ∧ isPre (base ++ und) k = true) := by
            rintro ⟨hc, -⟩
            rw [featNames_cons] at hc
            rcases List.mem_cons.mp hc with h1 | h1
            · exact hkf h1
            · exact hmem h1
          rw [if_neg (fun hc => hmem hc.1), hinner, if_neg hncons]
    · have hinner :
          (if isPre (base ++ und) f.name = true then upd row f.name zeroS else row) k
            = row k := by
        by_cases hfp : isPre (base ++ und) f.name = true
        · rw [if_pos hfp, upd_apply, if_neg]
          intro hkf
          exact hk (hkf ▸ hfp)
        · rw [if_neg hfp]
      rw [if_neg (fun hc => hk hc.2), hinner, if_neg (fun hc => hk hc.2)]

/-- The categorical branch of `handleInputChange`, taken when the field
names a listed base feature. -/
theorem hic_base {mf : List Feature} (hnd : (featNames mf).Nodup)
    {b : Feature} (hb : b ∈ mf) (hbase : IsBase b) (row : Row) (value : Str) :
    handleInputChange mf row b.name value =
      if value ≠ [] then
        upd (clearGroup mf b.name row) (colName b.name (encodeCategory value)) oneS
      else clearGroup mf b.name row := by
  unfold handleInputChange
  rw [find_name_of_nodup hnd hb]
  exact if_pos hbase

/-- The direct-write branch of `handleInputChange`, taken when no listed
base feature carries the field's name. -/
theorem hic_other {mf : List Feature} {field : Str}
    (h : ∀ f ∈ mf, f.name = field → ¬ IsBase f) (row : Row) (value : Str) :
    handleInputChange mf row field value = upd row field value := by
  unfold handleInputChange
  cases hfind : mf.find? (fun f => decide (f.name = field)) with
  | none => rfl
  | some f =>
    have hf : f.name = field := by
      have := List.find?_some hfind
      exact of_decide_eq_true this
    have hmem : f ∈ mf := List.mem_of_find?_eq_some hfind
    exact if_neg (h f hmem hf)

theorem encodeCategory_of_no_space {v : Str} (h : ' ' ∉ v) :
    encodeCategory v = v := by
  unfold encodeCategory
  have : ∀ c ∈ v, spaceToUnd c = c := by
    intro c hc
    unfold spaceToUnd
    rw [if_neg]
    intro he
    exact h (he ▸ hc)
  rw [List.map_congr_left this]
  exact List.map_id v

theorem initRow_ne_oneS (mf : List Feature) (k : Str) : initRow mf k ≠ oneS := by
  have hgen : ∀ k, (fun (_ : Str) => empS) k ≠ oneS := by
    intro k h
    simp [empS, oneS] at h
  have hstep : ∀ f ∈ mf, ∀ row : Row, (∀ k, row k ≠ oneS) →
      ∀ k, initFeature row f k ≠ oneS := by
    intro f _ row hrow k
    unfold initFeature
    split
    · refine foldl_inv (fun r : Row => ∀ k, r k ≠ oneS) _ f.sample_values row ?_ hrow k
      intro c _ r hr k
      rw [upd_apply]
      split
      · simp [zeroS, oneS]
      · exact hr k
    · rw [upd_apply]
      split
      · simp [empS, oneS]
      · exact hrow k
  exact foldl_inv (fun r : Row => ∀ k, r k ≠ oneS) initFeature mf _
    (fun f hf r hr => hstep f hf r hr) hgen k

/-- One `handleInputChange` call under the hygiene conditions preserves the
one-hot invariant. -/
theorem hic_preserves {mf : List Feature} (hyg : Hygienic mf)
    {field value : Str} (hcall : OkCall mf (field, value))
    {row : Row} (hinv : OneHotInv mf row) :
    OneHotInv mf (handleInputChange mf row field value) := by
  obtain ⟨hnd, hlisted, hprefree, hnospace⟩ := hyg
  rcases hcall with ⟨b, hb, hbase, hfield, hval⟩ | ⟨hnotbase, hnopre⟩
  · subst hfield
    rw [hic_base hnd hb hbase]
    by_cases hv : value = []
    · rw [if_neg (not_not_intro hv)]
      intro b' hb' hbase' c₁ hc₁ c₂ hc₂ hs₁ hs₂
      have hclear : ∀ c, SelectedAt (clearGroup mf b.name row) b' c → SelectedAt row b' c := by
        intro c hs
        unfold SelectedAt at hs ⊢
        rw [clearGroup_apply] at hs
        by_cases hcnd : colName b'.name c ∈ featNames mf ∧
            isPre (b.name ++ und) (colName b'.name c) = true
        · rw [if_pos hcnd] at hs
          exact absurd hs (by decide)
        · rw [if_neg hcnd] at hs
          exact hs
      exact hinv b' hb' hbase' c₁ hc₁ c₂ hc₂ (hclear c₁ hs₁) (hclear c₂ hs₂)
    · rw [if_pos hv]
      have hvmem : value ∈ b.sample_values := hval.resolve_right hv
      have henc : encodeCategory value = value :=
        encodeCategory_of_no_space (hnospace b hb hbase value hvmem)
      rw [henc]
      intro b' hb' hbase' c₁ hc₁ c₂ hc₂ hs₁ hs₂
      by_cases hbb : b'.name = b.name
      · obtain rfl : b' = b := nodup_names_inj hnd hb' hb hbb
        have hsel : ∀ c ∈ b'.sample_values,
            SelectedAt (upd (clearGroup mf b'.name row) (colName b'.name value) oneS) b' c →
              c = value := by
          intro c hc hs
          unfold SelectedAt at hs
          rw [upd_apply] at hs
          by_cases hck : colName b'.name c = colName b'.name value
          · exact colName_inj_right hck
          · rw [if_neg hck, clearGroup_apply] at hs
            have hcnd : colName b'.name c ∈ featNames mf ∧
                isPre (b'.name ++ und) (colName b'.name c) = true :=
              ⟨hlisted b' hb' hbase' c hc, by unfold colName; exact isPre_append_self _ _⟩
            rw [if_pos hcnd] at hs
            exact absurd hs (by decide)
        rw [hsel c₁ hc₁ hs₁, hsel c₂ hc₂ hs₂]
      · have hsel : ∀ c,
            SelectedAt (upd (clearGroup mf b.name row) (colName b.name value) oneS) b' c →
              SelectedAt row b' c := by
          intro c hs
          unfold SelectedAt at hs ⊢
          rw [upd_apply] at hs
          by_cases hck : colName b'.name c = colName b.name value
          · exact absurd (colName_eq_colName_base_eq hck
              (hprefree b' hb' b hb hbase' hbase hbb)
              (hprefree b hb b' hb' hbase hbase' (fun he => hbb he.symm))) hbb
          · rw [if_neg hck, clearGroup_apply] at hs
            by_cases hcnd : colName b'.name c ∈ featNames mf ∧
                isPre (b.name ++ und) (colName b'.name c) = true
            · rw [if_pos hcnd] at hs
              exact absurd hs (by decide)
            · rw [if_neg hcnd] at hs
              exact hs
        exact hinv b' hb' hbase' c₁ hc₁ c₂ hc₂ (hsel c₁ hs₁) (hsel c₂ hs₂)
  · rw [hic_other hnotbase]
    intro b' hb' hbase' c₁ hc₁ c₂ hc₂ hs₁ hs₂
    have hsel : ∀ c, SelectedAt (upd row field value) b' c → SelectedAt row b' c := by
      intro c hs
      unfold SelectedAt at hs ⊢
      rw [upd_apply] at hs
      by_cases hck : colName b'.name c = field
      · exfalso
        have hp : isPre (b'.name ++ und) field = true := by
          rw [← hck]
          unfold colName
          exact isPre_append_self _ _
        rw [hnopre b' hb' hbase'] at hp
        cases hp
      · rw [if_neg hck] at hs
        exact hs
    exact hinv b' hb' hbase' c₁ hc₁ c₂ hc₂ (hsel c₁ hs₁) (hsel c₂ hs₂)

/-- The effect of a single selection under the hygiene conditions: the
chosen one-hot column reads '1' and every other listed one-hot column of
the base reads '0'. -/
theorem hic_select_effect {mf : List Feature} (hyg : Hygienic mf)
    {b : Feature} (hb : b ∈ mf) (hbase : IsBase b)
    {v : Str} (hv : v ∈ b.sample_values) (hvne : v ≠ []) (row : Row) :
    SelectedAt (handleInputChange mf row b.name v) b v ∧
    ∀ c ∈ b.sample_values, c ≠ v →
      handleInputChange mf row b.name v (colName b.name c) = zeroS := by
  obtain ⟨hnd, hlisted, hprefree, hnospace⟩ := hyg
  rw [hic_base hnd hb hbase, if_pos hvne,
    encodeCategory_of_no_space (hnospace b hb hbase v hv)]
  constructor
  · unfold SelectedAt
    rw [upd_apply, if_pos rfl]
  · intro c hc hcv
    have hne : colName b.name c ≠ colName b.name v := fun he => hcv (colName_inj_right he)
    have hcnd : colName b.name c ∈ featNames mf ∧
        isPre (b.name ++ und) (colName b.name c) = true :=
      ⟨hlisted b hb hbase c hc, by unfold colName; exact isPre_append_self _ _⟩
    rw [upd_apply, if_neg hne, clearGroup_apply, if_pos hcnd]

/-- C9 counterexample.  With the features list holding only the base entry
for "region" — the shape `loadModelFeatures`'s initialization itself
assumes when it builds the one-hot columns `name_category` from base
entries — the clearing loop of `handleInputChange` finds no listed column
to reset, so selecting "North" and then "South" leaves BOTH one-hot
columns at '1': the claimed at-most-one invariant and the
reset-before-set behaviour fail. -/
theorem one_hot_exclusivity_false :
    rowTwice (colName (strL "region") (strL "North")) = oneS ∧
    rowTwice (colName (strL "region") (strL "South")) = oneS ∧
    ¬ AtMostOneSelected rowTwice
        ⟨strL "region", catS, 2, [strL "North", strL "South"], 0⟩ := by
  refine ⟨by decide, by decide, ?_⟩
  intro h
  have h2 := h (strL "North") (by decide) (strL "South") (by decide) (by decide) (by decide)
  exact absurd h2 (by decide)

/-- C9, amended.  If the features list is hygienic — duplicate-free names,
every one-hot column `base_category` of each categorical base feature
itself listed (so the clearing loop reaches it), no base name extended by
an underscore prefixing another base's name, and space-free categories —
and `handleInputChange` is invoked only as the component issues the calls,
then after initialization and any such call sequence at most one one-hot
column of each base feature holds '1'; moreover a single selection leaves
the chosen column at '1' and every other listed column of that base at
'0'. -/
theorem one_hot_exclusivity_amended (mf : List Feature) (calls : List (Str × Str))
    (hyg : Hygienic mf) (hok : ∀ call ∈ calls, OkCall mf call) :
    OneHotInv mf (runCalls mf calls (initRow mf)) ∧
    ∀ b ∈ mf, IsBase b → ∀ v ∈ b.sample_values, v ≠ [] → ∀ row : Row,
      SelectedAt (handleInputChange mf row b.name v) b v ∧
      ∀ c ∈ b.sample_values, c ≠ v →
        handleInputChange mf row b.name v (colName b.name c) = zeroS := by
  constructor
  · unfold runCalls
    refine foldl_inv (OneHotInv mf) _ calls (initRow mf) ?_ ?_
    · intro call hcall rowx hrow
      obtain ⟨fld, val⟩ := call
      exact hic_preserves hyg (hok (fld, val) hcall) hrow
    · intro b hb hbase c₁ hc₁ c₂ hc₂ hs₁ hs₂
      exact absurd hs₁ (initRow_ne_oneS mf _)
  · intro b hb hbase v hv hvne row
    exact hic_select_effect hyg hb hbase hv hvne row

/-- C9 witness: with the one-hot columns listed alongside the base feature,
the hygiene conditions hold, both selections are component-issued calls,
and the invariant holds after selecting "North" and then "South". -/
theorem one_hot_exclusivity_amended_witness :
    Hygienic mfListed ∧ (∀ call ∈ selectTwice, OkCall mfListed call) ∧
    OneHotInv mfListed (runCalls mfListed selectTwice (initRow mfListed)) :=
  ⟨by decide, by decide,
   (one_hot_exclusivity_amended mfListed selectTwice (by decide) (by decide)).1⟩

/-- C10.  In ModelPredictions, a selected category value `v` is encoded
into the one-hot column name by replacing every space with an underscore,
and the displayed selected value is decoded by stripping the base prefix
and replacing every underscore with a space.  The decode of the encode
equals `v` with each underscore replaced by a space, and the round trip is
the identity exactly when `v` contains no underscore. -/
theorem category_encode_decode_roundtrip (base v : Str) :
    decodeSelected base (colName base (encodeCategory v)) = v.map undToSpace ∧
    (decodeSelected base (colName base (encodeCategory v)) = v ↔ '_' ∉ v) := by
  have hdec : decodeSelected base (colName base (encodeCategory v)) = v.map undToSpace := by
    unfold decodeSelected colName encodeCategory
    have hlen : (base ++ und).length = base.length + 1 := by simp [und]
    rw [← hlen, List.drop_left, List.map_map]
    exact List.map_congr_left (fun c _ => undToSpace_spaceToUnd c)
  exact ⟨hdec, by rw [hdec]; exact map_undToSpace_eq_self_iff v⟩

/-- C10 witness: at base "region" and category "North West" (a space, no
underscore) the round trip is the identity. -/
theorem category_encode_decode_roundtrip_witness :
    decodeSelected (strL "region")
      (colName (strL "region") (encodeCategory (strL "North West"))) =
      strL "North West" :=
  (category_encode_decode_roundtrip (strL "region") (strL "North West")).2.mpr
    (by decide)

/-! ## C8: client-side training timeout -/

/-- C8.  The training call's client-side timeout is 5 minutes
(300000 ms), and the `handleTrain` catch block routes a timed-out call
(axios code ECONNABORTED, or a message containing "timeout") to its
dedicated timeout branch, distinct from the generic training-failure
branch — the outcome is surfaced as a timeout, not as a failure. -/
theorem train_timeout_unknown_outcome (code message : Str)
    (h : code = strL "ECONNABORTED" ∨ containsSub message (strL "timeout") = true) :
    classifyTrainError code message = .timedOut ∧
    classifyTrainError code message ≠ .trainingFailed ∧
    trainTimeoutMs = 5 * 60 * 1000 := by
  unfold classifyTrainError
  rw [if_pos h]
  exact ⟨rfl, by simp, rfl⟩

/-- C8 witness: an aborted-connection error is classified as a timeout. -/
theorem train_timeout_unknown_outcome_witness :
    classifyTrainError (strL "ECONNABORTED") (strL "Network Error") = .timedOut ∧
    trainTimeoutMs = 5 * 60 * 1000 :=
  ⟨(train_timeout_unknown_outcome (strL "ECONNABORTED") (strL "Network Error")
      (Or.inl rfl)).1,
   (train_timeout_unknown_outcome (strL "ECONNABORTED") (strL "Network Error")
      (Or.inl rfl)).2.2⟩

/-! ## Lemmas about `mapME` -/

theorem mapME_ok_length {α β ε : Type _} (f : α → Except ε β) :
    ∀ (l : List α) (bs : List β), mapME f l = .ok bs → bs.length = l.length := by
  intro l
  induction l with
  | nil =>
    intro bs h
    unfold mapME at h
    injection h with h
    rw [← h]
    rfl
  | cons a as ih =>
    intro bs h
    unfold mapME at h
    cases hfa : f a with
    | error e => rw [hfa] at h; cases h
    | ok b =>
      rw [hfa] at h
      cases hrest : mapME f as with
      | error e => rw [hrest] at h; cases h
      | ok bs' =>
        rw [hrest] at h
        injection h with h
        rw [← h]
        simp [ih bs' hrest]

theorem mapME_map_eq {α β ε γ : Type _} (f : α → Except ε β) (g : β → γ) (k : α → γ)
    (hfg : ∀ a b, f a = .ok b → g b = k a) :
    ∀ (l : List α) (bs : List β), mapME f l = .ok bs → bs.map g = l.map k := by
  intro l
  induction l with
  | nil =>
    intro bs h
    unfold mapME at h
    injection h with h
    rw [← h]
    rfl
  | cons a as ih =>
    intro bs h
    unfold mapME at h
    cases hfa : f a with
    | error e => rw [hfa] at h; cases h
    | ok b =>
      rw [hfa] at h
      cases hrest : mapME f as with
      | error e => rw [hrest] at h; cases h
      | ok bs' =>
        rw [hrest] at h
        injection h with h
        rw [← h]
        simp only [List.map_cons]
        rw [hfg a b hfa, ih bs' hrest]

theorem mapME_ok_forall {α β ε : Type _} (f : α → Except ε β) :
    ∀ (l : List α) (bs : List β), mapME f l = .ok bs → ∀ a ∈ l, ∃ b, f a = .ok b := by
  intro l
  induction l with
  | nil => intro bs _ a ha; cases ha
  | cons a as ih =>
    intro bs h x hx
    unfold mapME at h
    cases hfa : f a with
    | error e => rw [hfa] at h; cases h
    | ok b =>
      rw [hfa] at h
      cases hrest : mapME f as with
      | error e => rw [hrest] at h; cases h
      | ok bs' =>
        rcases List.mem_cons.mp hx with rfl | hx'
        · exact ⟨b, hfa⟩
        · exact ih bs' hrest x hx'

theorem mapME_of_forall_ok {α β ε : Type _} (f : α → Except ε β) :
    ∀ l : List α, (∀ a ∈ l, ∃ b, f a = .ok b) → ∃ bs, mapME f l = .ok bs := by
  intro l
  induction l with
  | nil => intro _; exact ⟨[], rfl⟩
  | cons a as ih =>
    intro hall
    obtain ⟨b, hb⟩ := hall a (List.mem_cons_self a as)
    obtain ⟨bs, hbs⟩ := ih (fun x hx => hall x (List.mem_cons_of_mem a hx))
    refine ⟨b :: bs, ?_⟩
    unfold mapME
    rw [hb, hbs]

theorem mapME_mem_exists {α β ε : Type _} (f : α → Except ε β) :
    ∀ (l : List α) (bs : List β), mapME f l = .ok bs → ∀ a ∈ l, ∃ b ∈ bs, f a = .ok b := by
  intro l
  induction l with
  | nil => intro bs _ a ha; cases ha
  | cons a as ih =>
    intro bs h x hx
    unfold mapME at h
    cases hfa : f a with
    | error e => rw [hfa] at h; cases h
    | ok b =>
      rw [hfa] at h
      cases hrest : mapME f as with
      | error e => rw [hrest] at h; cases h
      | ok bs' =>
        rw [hrest] at h
        injection h with h
        rcases List.mem_cons.mp hx with rfl | hx'
        · exact ⟨b, by rw [← h]; exact List.mem_cons_self b bs', hfa⟩
        · obtain ⟨b', hb', hfb'⟩ := ih bs' hrest x hx'
          exact ⟨b', by rw [← h]; exact List.mem_cons_of_mem b hb', hfb'⟩

theorem mapME_ok_mem_rev {α β ε : Type _} (f : α → Except ε β) :
    ∀ (l : List α) (bs : List β), mapME f l = .ok bs → ∀ b ∈ bs, ∃ a ∈ l, f a = .ok b := by
  intro l
  induction l with
  | nil =>
    intro bs h b hb
    unfold mapME at h
    injection h with h
    rw [← h] at hb
    cases hb
  | cons a as ih =>
    intro bs h x hx
    unfold mapME at h
    cases hfa : f a with
    | error e => rw [hfa] at h; cases h
    | ok b =>
      rw [hfa] at h
      cases hrest : mapME f as with
      | error e => rw [hrest] at h; cases h
      | ok bs' =>
        rw [hrest] at h
        injection h with h
        rw [← h] at hx
        rcases List.mem_cons.mp hx with rfl | hx'
        · exact ⟨a, List.mem_cons_self a as, hfa⟩
        · obtain ⟨a', ha', hfa'⟩ := ih bs' hrest x hx'
          exact ⟨a', List.mem_cons_of_mem a ha', hfa'⟩

theorem mapME_ok_get {α β ε : Type _} (f : α → Except ε β) :
    ∀ (l : List α) (bs : List β), mapME f l = .ok bs →
      ∀ (i : Nat) (hi : i < l.length) (hbi : i < bs.length),
        f (l.get ⟨i, hi⟩) = .ok (bs.get ⟨i, hbi⟩) := by
  intro l
  induction l with
  | nil => intro bs _ i hi; cases hi
  | cons a as ih =>
    intro bs h i hi hbi
    unfold mapME at h
    cases hfa : f a with
    | error e => rw [hfa] at h; cases h
    | ok b =>
      rw [hfa] at h
      cases hrest : mapME f as with
      | error e => rw [hrest] at h; cases h
      | ok bs' =>
        rw [hrest] at h
        injection h with h
        subst h
        cases i with
        | zero => exact hfa
        | succ j =>
          exact ih bs' hrest j (Nat.succ_lt_succ_iff.mp hi) (Nat.succ_lt_succ_iff.mp hbi)

theorem mapME_error_shape {α β ε : Type _} (f : α → Except ε β) (Q : ε → Prop)
    (hQ : ∀ a e, f a = .error e → Q e) :
    ∀ (l : List α) (e : ε), mapME f l = .error e → Q e := by
  intro l
  induction l with
  | nil => intro e h; cases h
  | cons a as ih =>
    intro e h
    unfold mapME at h
    cases hfa : f a with
    | error e' =>
      rw [hfa] at h
      injection h with h
      rw [← h]
      exact hQ a e' hfa
    | ok b =>
      rw [hfa] at h
      cases hrest : mapME f as with
      | error e' =>
        rw [hrest] at h
        injection h with h
        rw [← h]
        exact ih e' hrest
      | ok bs' => rw [hrest] at h; cases h

/-! ## C1: the encoded feature set is identical at training and inference -/

/-- The encoded row produced by the frozen pipeline is keyed exactly by
the pipeline's feature names. -/
theorem transformRecord_keys (P : PreprocessingPipeline) (r : Record)
    (row : List (String × ℚ)) (h : transformRecord P r = .ok row) :
    row.map Prod.fst = pipelineFeatureNames P := by
  unfold transformRecord at h
  split at h
  next e heq => cases h
  next numPart hnum =>
    split at h
    next e heq => cases h
    next catParts hcat =>
      injection h with h
      subst h
      unfold pipelineFeatureNames
      rw [List.map_append]
      congr 1
      · refine mapME_map_eq _ Prod.fst (·.1) ?_ P.numStats numPart hnum
        intro p b hb
        cases hr : rget r p.1 with
        | none => rw [hr] at hb; cases hb
        | some v =>
          rw [hr] at hb
          injection hb with hb
          rw [← hb]
      · rw [List.map_flatten]
        congr 1
        refine mapME_map_eq _ (List.map Prod.fst)
          (fun p => p.2.vocab.map (fun cat => p.1 ++ "_" ++ cat)) ?_ P.catStats catParts hcat
        intro p g hg
        cases hr : rget r p.1 with
        | none => rw [hr] at hg; cases hg
        | some v =>
          rw [hr] at hg
          injection hg with hg
          rw [← hg]
          unfold oneHotGroup
          rw [List.map_map]
          rfl

/-- C1.  The set of encoded feature names produced by the
PreprocessingPipeline at training time exactly equals the set consumed at
inference time: every successful application of the frozen pipeline to a
record yields an encoded row keyed exactly by the pipeline's feature-name
list (no new encoded column can appear), and the artifact's exposed
`feature_names` are that same list. -/
theorem encoded_feature_set_train_serve :
    (∀ (P : PreprocessingPipeline) (r : Record) (row : List (String × ℚ)),
      transformRecord P r = .ok row → row.map Prod.fst = pipelineFeatureNames P) ∧
    (∀ (numCols catCols : List String) (target : String) (task : TaskType)
      (alg : Algorithm) (excl : List String) (rows : List Record) (art : ModelArtifact),
      trainModel numCols catCols target task alg excl rows = .ok art →
      art.feature_names = pipelineFeatureNames art.pipeline) := by
  constructor
  · exact transformRecord_keys
  · intro numCols catCols target task alg excl rows art h
    unfold trainModel at h
    split at h
    · cases h
    · split at h
      · cases h
      · split at h
        · cases h
        · injection h with h
          rw [← h]

unseal Rat.add Rat.sub Rat.mul Rat.inv in
/-- C1 witness: the record supplying "age" and the unseen category "East"
for "region" transforms successfully, and the encoded row's keys equal the
pipeline's feature names. -/
theorem encoded_feature_set_train_serve_witness :
    transformRecord pScenB rEast =
      .ok [("age", (1 : ℚ)), ("region_North", (0 : ℚ)), ("region_South", (0 : ℚ))] ∧
    ([("age", (1 : ℚ)), ("region_North", (0 : ℚ)), ("region_South", (0 : ℚ))].map Prod.fst
      = pipelineFeatureNames pScenB) :=
  ⟨by decide, encoded_feature_set_train_serve.1 pScenB rEast _ (by decide)⟩

/-! ## C5: constant target fails with InvalidTargetError -/

/-- C5.  A dataset whose target column has at most one distinct value
fails training with `InvalidTargetError` and never produces a (trivial)
model artifact. -/
theorem constant_target_invalid_target_error
    (numCols catCols : List String) (target : String) (task : TaskType)
    (alg : Algorithm) (excl : List String) (rows : List Record)
    (h : targetDistinctCount rows target ≤ 1) :
    trainModel numCols catCols target task alg excl rows = .error .invalidTarget ∧
    ∀ art : ModelArtifact,
      trainModel numCols catCols target task alg excl rows ≠ .ok art := by
  have he : trainModel numCols catCols target task alg excl rows = .error .invalidTarget := by
    unfold trainModel
    rw [if_pos h]
  refine ⟨he, fun art hart => ?_⟩
  rw [he] at hart
  cases hart

/-- C5 witness: the 10-row dataset with the constant target "t" fails with
`InvalidTargetError`. -/
theorem constant_target_invalid_target_error_witness :
    targetDistinctCount dsConst "t" ≤ 1 ∧
    trainModel ["x"] [] "t" .classification .random_forest [] dsConst
      = .error .invalidTarget :=
  ⟨by decide,
   (constant_target_invalid_target_error ["x"] [] "t" .classification .random_forest []
      dsConst (by decide)).1⟩

/-! ## C6: algorithm/task pairing -/

/-- C6.  Logistic regression is accepted only for classification and
linear regression only for regression: a successful training call with
either linear algorithm fixes the task type, and any unsupported
algorithm/task pairing (with a valid target and enough rows, so the
earlier checks pass) fails with `UnsupportedConfigurationError` rather
than training a model. -/
theorem algorithm_task_pairing :
    (∀ (numCols catCols : List String) (target : String) (task : TaskType)
      (excl : List String) (rows : List Record) (art : ModelArtifact),
      trainModel numCols catCols target task .logistic_regression excl rows = .ok art →
      task = .classification) ∧
    (∀ (numCols catCols : List String) (target : String) (task : TaskType)
      (excl : List String) (rows : List Record) (art : ModelArtifact),
      trainModel numCols catCols target task .linear_regression excl rows = .ok art →
      task = .regression) ∧
    (∀ (numCols catCols : List String) (target : String) (task : TaskType)
      (alg : Algorithm) (excl : List String) (rows : List Record),
      1 < targetDistinctCount rows target →
      minViableRows ≤ rows.length →
      supportedPair alg task = false →
      trainModel numCols catCols target task alg excl rows
        = .error .unsupportedConfiguration) := by
  refine ⟨?_, ?_, ?_⟩
  · intro nc cc t task ex rows art h
    unfold trainModel at h
    split at h
    · cases h
    · split at h
      · cases h
      · split at h
        · cases h
        · rename_i hsup
          cases task with
          | classification => rfl
          | regression => exact absurd rfl hsup
  · intro nc cc t task ex rows art h
    unfold trainModel at h
    split at h
    · cases h
    · split at h
      · cases h
      · split at h
        · cases h
        · rename_i hsup
          cases task with
          | regression => rfl
          | classification => exact absurd rfl hsup
  · intro nc cc t task alg ex rows h1 h2 h3
    unfold trainModel
    rw [if_neg (by omega : ¬ targetDistinctCount rows t ≤ 1),
      if_neg (by omega : ¬ rows.length < minViableRows), if_pos h3]

/-- C6 witness: logistic regression with the regression task, on an
otherwise valid dataset, fails with `UnsupportedConfigurationError`. -/
theorem algorithm_task_pairing_witness :
    1 < targetDistinctCount dsReg "y" ∧ minViableRows ≤ dsReg.length ∧
    supportedPair .logistic_regression .regression = false ∧
    trainModel ["x", "y"] [] "y" .regression .logistic_regression [] dsReg
      = .error .unsupportedConfiguration :=
  ⟨by decide, by decide, rfl,
   algorithm_task_pairing.2.2 ["x", "y"] [] "y" .regression .logistic_regression [] dsReg
     (by decide) (by decide) rfl⟩

/-! ## C2: median imputation frozen from the training split -/

theorem find_map_self {β : Type _} (F : String → β) :
    ∀ (l : List String) (c : String), c ∈ l →
      (l.map (fun x => (x, F x))).find? (fun p => decide (p.1 = c)) = some (c, F c) := by
  intro l
  induction l with
  | nil => intro c hc; cases hc
  | cons x l ih =>
    intro c hc
    by_cases hx : x = c
    · subst hx
      simp [List.find?]
    · simp only [List.map_cons, List.find?]
      rw [decide_eq_false hx]
      refine ih c ?_
      rcases List.mem_cons.mp hc with rfl | hmem
      · exact absurd rfl hx
      · exact hmem

/-- C2.  A successful training call fits its pipeline on the training
split only; for each numerical feature column the fitted imputation value
is the median of the training-split column; and any missing value seen
later (test split or prediction record) is filled with that frozen
training-split median — the imputation depends only on the frozen
statistic, never on the new data. -/
theorem median_imputation_from_train_split
    (numCols catCols : List String) (target : String) (task : TaskType)
    (alg : Algorithm) (excl : List String) (rows : List Record) (art : ModelArtifact)
    (h : trainModel numCols catCols target task alg excl rows = .ok art) :
    art.pipeline =
      fitPipeline (featFilter numCols target excl) (featFilter catCols target excl)
        (splitData task target rows).1 ∧
    ∀ c ∈ featFilter numCols target excl,
      statOf art.pipeline c =
        some (fitNumStat (columnNums (splitData task target rows).1 c)) ∧
      (fitNumStat (columnNums (splitData task target rows).1 c)).median =
        medianQ ((columnNums (splitData task target rows).1 c).filterMap id) ∧
      ∀ v : CellValue, numVal v = none →
        imputeCell (fitNumStat (columnNums (splitData task target rows).1 c)) v =
          (fitNumStat (columnNums (splitData task target rows).1 c)).median := by
  have hpipe : art.pipeline =
      fitPipeline (featFilter numCols target excl) (featFilter catCols target excl)
        (splitData task target rows).1 := by
    unfold trainModel at h
    split at h
    · cases h
    · split at h
      · cases h
      · split at h
        · cases h
        · injection h with h
          rw [← h]
  refine ⟨hpipe, fun c hc => ⟨?_, rfl, fun v hv => ?_⟩⟩
  · rw [hpipe]
    unfold fitPipeline statOf
    rw [find_map_self (fun c => fitNumStat (columnNums (splitData task target rows).1 c))
      (featFilter numCols target excl) c hc]
    rfl
  · unfold imputeCell
    rw [hv]
    rfl

unseal Rat.add Rat.sub Rat.mul Rat.inv in
/-- C2 witness: on the 10-row regression dataset the pipeline is fit on
the first eight rows (the 80% split); the fitted median of column "x" is
the training-split median 7/2 (present values 1,2,3,4,6,8), and a null
cell is imputed with exactly that value. -/
theorem median_imputation_from_train_split_witness :
    dsRegCall = .ok dsRegArt ∧
    statOf dsRegArt.pipeline "x" =
      some (fitNumStat (columnNums (splitData .regression "y" dsReg).1 "x")) ∧
    (fitNumStat (columnNums (splitData .regression "y" dsReg).1 "x")).median = 7 / 2 ∧
    imputeCell (fitNumStat (columnNums (splitData .regression "y" dsReg).1 "x"))
      CellValue.null = 7 / 2 := by
  have hok : trainModel ["x", "y"] [] "y" .regression .linear_regression [] dsReg
      = .ok dsRegArt := by decide
  have h := median_imputation_from_train_split ["x", "y"] [] "y" .regression
    .linear_regression [] dsReg dsRegArt hok
  have h3 := h.2 "x" (by decide)
  have hmed : (fitNumStat (columnNums (splitData .regression "y" dsReg).1 "x")).median
      = 7 / 2 := by
    rw [h3.2.1]
    decide
  refine ⟨hok, h3.1, hmed, ?_⟩
  rw [h3.2.2 CellValue.null rfl]
  exact hmed

/-! ## C7: 80/20 split, stratified for classification -/

theorem ceil20_le (n : Nat) : ceil20 n ≤ n := by
  unfold ceil20
  omega

theorem filter_split_length {α : Type _} (p : α → Bool) :
    ∀ l : List α, (l.filter p).length + (l.filter (fun a => !(p a))).length = l.length := by
  intro l
  induction l with
  | nil => rfl
  | cons a l ih =>
    cases hpa : p a <;> simp [List.filter_cons, hpa] <;> omega

theorem countP_of_all {α : Type _} (p : α → Bool) :
    ∀ l : List α, (∀ x ∈ l, p x = true) → l.countP p = l.length := by
  intro l
  induction l with
  | nil => intro _; rfl
  | cons a l ih =>
    intro hall
    rw [List.countP_cons, ih (fun x hx => hall x (List.mem_cons_of_mem a hx)),
      hall a (List.mem_cons_self a l)]
    simp

theorem countP_of_none {α : Type _} (p : α → Bool) :
    ∀ l : List α, (∀ x ∈ l, p x = false) → l.countP p = 0 := by
  intro l
  induction l with
  | nil => intro _; rfl
  | cons a l ih =>
    intro hall
    rw [List.countP_cons, ih (fun x hx => hall x (List.mem_cons_of_mem a hx)),
      hall a (List.mem_cons_self a l)]
    simp

theorem countP_flatten_eq {α : Type _} (p : α → Bool) :
    ∀ L : List (List α), (L.flatten).countP p = (L.map (fun l => l.countP p)).sum := by
  intro L
  induction L with
  | nil => rfl
  | cons l L ih =>
    simp only [List.flatten_cons, List.countP_append, List.map_cons, List.sum_cons, ih]

theorem length_flatten_eq {α : Type _} :
    ∀ L : List (List α), (L.flatten).length = (L.map List.length).sum := by
  intro L
  induction L with
  | nil => rfl
  | cons l L ih =>
    simp only [List.flatten_cons, List.length_append, List.map_cons, List.sum_cons, ih]

theorem sum_map_add_nat {α : Type _} (f h : α → Nat) :
    ∀ l : List α, (l.map (fun x => f x + h x)).sum = (l.map f).sum + (l.map h).sum := by
  intro l
  induction l with
  | nil => rfl
  | cons a l ih =>
    simp only [List.map_cons, List.sum_cons, ih]
    omega

theorem sum_map_ite_single {κ : Type _} [DecidableEq κ] (v : κ → Nat) :
    ∀ (keys : List κ) (c : κ), keys.Nodup → c ∈ keys →
      (keys.map (fun k => if k = c then v k else 0)).sum = v c := by
  intro keys
  induction keys with
  | nil => intro c _ hc; cases hc
  | cons k ks ih =>
    intro c hnd hc
    simp only [List.map_cons, List.sum_cons]
    rcases List.mem_cons.mp hc with rfl | hmem
    · rw [if_pos rfl]
      have hz : (ks.map (fun x => if x = c then v x else 0)).sum = 0 := by
        apply List.sum_eq_zero
        intro x hx
        obtain ⟨k', hk', rfl⟩ := List.mem_map.mp hx
        rw [if_neg]
        intro he
        exact (List.nodup_cons.mp hnd).1 (he ▸ hk')
      rw [hz]
      omega
    · have hkc : k ≠ c := fun he => (List.nodup_cons.mp hnd).1 (he ▸ hmem)
      rw [if_neg hkc, ih c (List.nodup_cons.mp hnd).2 hmem]
      omega

theorem length_eq_sum_filter {α κ : Type _} [DecidableEq κ] (f : α → κ) :
    ∀ (keys : List κ) (l : List α), keys.Nodup → (∀ a ∈ l, f a ∈ keys) →
      (keys.map (fun k => (l.filter (fun a => decide (f a = k))).length)).sum = l.length := by
  intro keys
  induction keys with
  | nil =>
    intro l _ hcov
    cases l with
    | nil => rfl
    | cons a l => exact absurd (hcov a (List.mem_cons_self a l)) (by simp)
  | cons k ks ih =>
    intro l hnd hcov
    simp only [List.map_cons, List.sum_cons]
    have hsplit := filter_split_length (fun a => decide (f a = k)) l
    have hrest : ∀ c ∈ ks,
        ((l.filter (fun a => !(decide (f a = k)))).filter (fun a => decide (f a = c))).length
          = (l.filter (fun a => decide (f a = c))).length := by
      intro c hc
      congr 1
      rw [List.filter_filter]
      apply List.filter_congr
      intro a _
      by_cases hfa : f a = c
      · have hck : ¬ c = k := by
          intro he
          exact (List.nodup_cons.mp hnd).1 (he ▸ hc)
        have hfk : ¬ f a = k := fun he => hck (hfa.symm.trans he)
        simp [hfa, hfk, hck]
      · simp [hfa]
    have hcov' : ∀ a ∈ l.filter (fun a => !(decide (f a = k))), f a ∈ ks := by
      intro a ha
      obtain ⟨hal, hap⟩ := List.mem_filter.mp ha
      have : ¬ f a = k := by simpa using hap
      rcases List.mem_cons.mp (hcov a hal) with he | hm
      · exact absurd he this
      · exact hm
    have ihl := ih (l.filter (fun a => !(decide (f a = k)))) (List.nodup_cons.mp hnd).2 hcov'
    have hmap : (ks.map (fun c =>
        ((l.filter (fun a => !(decide (f a = k)))).filter (fun a => decide (f a = c))).length))
          = ks.map (fun c => (l.filter (fun a => decide (f a = c))).length) :=
      List.map_congr_left hrest
    rw [hmap] at ihl
    omega

theorem group_mem_class (target : String) (rows : List Record) (c : CellValue) :
    ∀ r ∈ groupOf target rows c, tgtOf target r = c := by
  intro r hr
  have := (List.mem_filter.mp hr).2
  simpa using this

theorem group_length_eq_countP (target : String) (rows : List Record) (c : CellValue) :
    (groupOf target rows c).length = rows.countP (fun r => decide (tgtOf target r = c)) := by
  unfold groupOf
  rw [List.countP_eq_length_filter]

/-- Per-class count of the stratified test (respectively training) part:
the class-`c` group contributes its own 20% (respectively 80%) share and
every other class's group contributes nothing. -/
theorem strat_counts (target : String) (rows : List Record) (c : CellValue)
    (hc : c ∈ classesOf target rows) :
    (stratSplit target rows).2.countP (fun r => decide (tgtOf target r = c)) =
      ceil20 (rows.countP (fun r => decide (tgtOf target r = c))) ∧
    (stratSplit target rows).1.countP (fun r => decide (tgtOf target r = c)) =
      rows.countP (fun r => decide (tgtOf target r = c)) -
        ceil20 (rows.countP (fun r => decide (tgtOf target r = c))) := by
  have hnd : (classesOf target rows).Nodup := List.nodup_dedup _
  constructor
  · show (((classesOf target rows).map (fun c' =>
        (groupOf target rows c').drop
          ((groupOf target rows c').length -
            ceil20 (groupOf target rows c').length))).flatten).countP
        (fun r => decide (tgtOf target r = c)) = _
    rw [countP_flatten_eq]
    have hpt : ∀ c' ∈ classesOf target rows,
        ((groupOf target rows c').drop
            ((groupOf target rows c').length -
              ceil20 (groupOf target rows c').length)).countP
          (fun r => decide (tgtOf target r = c))
        = if c' = c then ceil20 (groupOf target rows c').length else 0 := by
      intro c' _
      by_cases hcc : c' = c
      · subst hcc
        rw [if_pos rfl]
        have hall : ∀ r ∈ (groupOf target rows c').drop
            ((groupOf target rows c').length - ceil20 (groupOf target rows c').length),
            (fun r => decide (tgtOf target r = c')) r = true := by
          intro r hr
          have hmem := List.drop_subset _ _ hr
          simp [group_mem_class target rows c' r hmem]
        rw [countP_of_all _ _ hall, List.length_drop]
        have := ceil20_le (groupOf target rows c').length
        omega
      · rw [if_neg hcc]
        apply countP_of_none
        intro r hr
        have hmem := List.drop_subset _ _ hr
        have := group_mem_class target rows c' r hmem
        simp [this, hcc]
    have h2 : ((classesOf target rows).map (fun c' =>
          (groupOf target rows c').drop
            ((groupOf target rows c').length -
              ceil20 (groupOf target rows c').length))).map
          (fun l => l.countP (fun r => decide (tgtOf target r = c)))
        = (classesOf target rows).map
            (fun c' => if c' = c then ceil20 (groupOf target rows c').length else 0) := by
      rw [List.map_map]
      exact List.map_congr_left hpt
    rw [h2,
      sum_map_ite_single (fun c' => ceil20 (groupOf target rows c').length)
        (classesOf target rows) c hnd hc, group_length_eq_countP]
  · show (((classesOf target rows).map (fun c' =>
        (groupOf target rows c').take
          ((groupOf target rows c').length -
            ceil20 (groupOf target rows c').length))).flatten).countP
        (fun r => decide (tgtOf target r = c)) = _
    rw [countP_flatten_eq]
    have hpt : ∀ c' ∈ classesOf target rows,
        ((groupOf target rows c').take
            ((groupOf target rows c').length -
              ceil20 (groupOf target rows c').length)).countP
          (fun r => decide (tgtOf target r = c))
        = if c' = c then
            (groupOf target rows c').length - ceil20 (groupOf target rows c').length
          else 0 := by
      intro c' _
      by_cases hcc : c' = c
      · subst hcc
        rw [if_pos rfl]
        have hall : ∀ r ∈ (groupOf target rows c').take
            ((groupOf target rows c').length - ceil20 (groupOf target rows c').length),
            (fun r => decide (tgtOf target r = c')) r = true := by
          intro r hr
          have hmem := List.take_subset _ _ hr
          simp [group_mem_class target rows c' r hmem]
        rw [countP_of_all _ _ hall, List.length_take]
        omega
      · rw [if_neg hcc]
        apply countP_of_none
        intro r hr
        have hmem := List.take_subset _ _ hr
        have := group_mem_class target rows c' r hmem
        simp [this, hcc]
    have h2 : ((classesOf target rows).map (fun c' =>
          (groupOf target rows c').take
            ((groupOf target rows c').length -
              ceil20 (groupOf target rows c').length))).map
          (fun l => l.countP (fun r => decide (tgtOf target r = c)))
        = (classesOf target rows).map (fun c' =>
            if c' = c then
              (groupOf target rows c').length - ceil20 (groupOf target rows c').length
            else 0) := by
      rw [List.map_map]
      exact List.map_congr_left hpt
    rw [h2,
      sum_map_ite_single
        (fun c' => (groupOf target rows c').length - ceil20 (groupOf target rows c').length)
        (classesOf target rows) c hnd hc, group_length_eq_countP]

/-- The two parts of the stratified split together have exactly as many
rows as the dataset. -/
theorem strat_total (target : String) (rows : List Record) :
    (stratSplit target rows).1.length + (stratSplit target rows).2.length = rows.length := by
  show (((classesOf target rows).map (fun c =>
      (groupOf target rows c).take
        ((groupOf target rows c).length - ceil20 (groupOf target rows c).length))).flatten).length
    + (((classesOf target rows).map (fun c =>
      (groupOf target rows c).drop
        ((groupOf target rows c).length - ceil20 (groupOf target rows c).length))).flatten).length
    = rows.length
  rw [length_flatten_eq, length_flatten_eq]
  have htr : ((classesOf target rows).map (fun c =>
        (groupOf target rows c).take
          ((groupOf target rows c).length - ceil20 (groupOf target rows c).length))).map
        List.length
      = (classesOf target rows).map (fun c =>
          (groupOf target rows c).length - ceil20 (groupOf target rows c).length) := by
    rw [List.map_map]
    refine List.map_congr_left ?_
    intro c _
    show ((groupOf target rows c).take
        ((groupOf target rows c).length - ceil20 (groupOf target rows c).length)).length = _
    rw [List.length_take]
    omega
  have hte : ((classesOf target rows).map (fun c =>
        (groupOf target rows c).drop
          ((groupOf target rows c).length - ceil20 (groupOf target rows c).length))).map
        List.length
      = (classesOf target rows).map (fun c => ceil20 (groupOf target rows c).length) := by
    rw [List.map_map]
    refine List.map_congr_left ?_
    intro c _
    show ((groupOf target rows c).drop
        ((groupOf target rows c).length - ceil20 (groupOf target rows c).length)).length = _
    rw [List.length_drop]
    have := ceil20_le (groupOf target rows c).length
    omega
  rw [htr, hte, ← sum_map_add_nat]
  have hpt : ∀ c ∈ classesOf target rows,
      ((groupOf target rows c).length - ceil20 (groupOf target rows c).length)
          + ceil20 (groupOf target rows c).length
        = (groupOf target rows c).length := by
    intro c _
    have := ceil20_le (groupOf target rows c).length
    omega
  rw [List.map_congr_left hpt]
  have hcov : ∀ r ∈ rows, tgtOf target r ∈ classesOf target rows := by
    intro r hr
    exact List.mem_dedup.mpr (List.mem_map_of_mem (tgtOf target) hr)
  exact length_eq_sum_filter (tgtOf target) (classesOf target rows) rows
    (List.nodup_dedup _) hcov

/-- C7.  The regression split is an unstratified positional 80/20 split:
the train part has n − ⌈n/5⌉ rows, the test part ⌈n/5⌉ rows, and the
selected positions are independent of any cell value (the split commutes
with any per-row transformation).  The classification split is stratified
by target class: the two parts partition the dataset and, for every target
class, the test part holds exactly ⌈k/5⌉ of that class's k rows and the
training part the remaining k − ⌈k/5⌉.  A successful training call fits
its pipeline on the train part of exactly this split and records the two
split sizes. -/
theorem split_eighty_twenty :
    (∀ (target : String) (rows : List Record),
      (splitData .regression target rows).1.length = rows.length - ceil20 rows.length ∧
      (splitData .regression target rows).2.length = ceil20 rows.length) ∧
    (∀ (target : String) (rows : List Record) (g : Record → Record),
      splitData .regression target (rows.map g) =
        ((splitData .regression target rows).1.map g,
         (splitData .regression target rows).2.map g)) ∧
    (∀ (target : String) (rows : List Record),
      (stratSplit target rows).1.length + (stratSplit target rows).2.length
        = rows.length) ∧
    (∀ (target : String) (rows : List Record) (c : CellValue),
      c ∈ classesOf target rows →
      (stratSplit target rows).2.countP (fun r => decide (tgtOf target r = c)) =
        ceil20 (rows.countP (fun r => decide (tgtOf target r = c))) ∧
      (stratSplit target rows).1.countP (fun r => decide (tgtOf target r = c)) =
        rows.countP (fun r => decide (tgtOf target r = c)) -
          ceil20 (rows.countP (fun r => decide (tgtOf target r = c)))) ∧
    (∀ (numCols catCols : List String) (target : String) (task : TaskType)
      (alg : Algorithm) (excl : List String) (rows : List Record) (art : ModelArtifact),
      trainModel numCols catCols target task alg excl rows = .ok art →
      art.pipeline = fitPipeline (featFilter numCols target excl)
        (featFilter catCols target excl) (splitData task target rows).1 ∧
      art.train_count = (splitData task target rows).1.length ∧
      art.test_count = (splitData task target rows).2.length) := by
  refine ⟨?_, ?_, strat_total, strat_counts, ?_⟩
  · intro target rows
    constructor
    · show (rows.take (rows.length - ceil20 rows.length)).length = _
      rw [List.length_take]
      omega
    · show (rows.drop (rows.length - ceil20 rows.length)).length = _
      rw [List.length_drop]
      have := ceil20_le rows.length
      omega
  · intro target rows g
    show ((rows.map g).take ((rows.map g).length - ceil20 (rows.map g).length),
          (rows.map g).drop ((rows.map g).length - ceil20 (rows.map g).length)) = _
    rw [List.length_map, ← List.map_take, ← List.map_drop]
    rfl
  · intro nc cc target task alg ex rows art h
    unfold trainModel at h
    split at h
    · cases h
    · split at h
      · cases h
      · split at h
        · cases h
        · injection h with h
          rw [← h]
          exact ⟨rfl, rfl, rfl⟩

/-- C7 witness: on the 10-row regression dataset the test part has
⌈10/5⌉ = 2 rows; on the 10-row two-class dataset the stratified split is a
partition and class "a" (5 rows) contributes exactly ⌈5/5⌉ = 1 row to the
test part. -/
theorem split_eighty_twenty_witness :
    (splitData .regression "y" dsReg).2.length = ceil20 dsReg.length ∧
    CellValue.str "a" ∈ classesOf "c" dsCls ∧
    (stratSplit "c" dsCls).2.countP (fun r => decide (tgtOf "c" r = .str "a")) =
      ceil20 (dsCls.countP (fun r => decide (tgtOf "c" r = .str "a"))) ∧
    (stratSplit "c" dsCls).1.length + (stratSplit "c" dsCls).2.length = dsCls.length :=
  ⟨(split_eighty_twenty.1 "y" dsReg).2, by decide,
   (split_eighty_twenty.2.2.2.1 "c" dsCls (.str "a") (by decide)).1,
   split_eighty_twenty.2.2.1 "c" dsCls⟩

/-! ## C4: missing feature errors, unknown categories encode to zero -/

/-- Every error the transform raises is a `MissingFeatureError`. -/
theorem transformRecord_error_is_missing (P : PreprocessingPipeline) (r : Record)
    (e : PredError) (h : transformRecord P r = .error e) :
    ∃ c, e = .missingFeature c := by
  unfold transformRecord at h
  split at h
  next e' heq =>
    injection h with h
    subst h
    refine mapME_error_shape _ (fun e => ∃ c, e = .missingFeature c) ?_ P.numStats e' heq
    intro p e2 hp
    cases hr : rget r p.1 with
    | none =>
      rw [hr] at hp
      injection hp with hp
      exact ⟨p.1, hp.symm⟩
    | some v => rw [hr] at hp; cases hp
  next numPart hnum =>
    split at h
    next e' heq =>
      injection h with h
      subst h
      refine mapME_error_shape _ (fun e => ∃ c, e = .missingFeature c) ?_ P.catStats e' heq
      intro p e2 hp
      cases hr : rget r p.1 with
      | none =>
        rw [hr] at hp
        injection hp with hp
        exact ⟨p.1, hp.symm⟩
      | some v => rw [hr] at hp; cases hp
    next catParts hcat => cases h

/-- A successful transform requires every base feature to be present in
the record. -/
theorem transformRecord_ok_requires (P : PreprocessingPipeline) (r : Record)
    (row : List (String × ℚ)) (h : transformRecord P r = .ok row) :
    ∀ c ∈ baseFeatures P, (rget r c).isSome := by
  unfold transformRecord at h
  split at h
  next e heq => cases h
  next numPart hnum =>
    split at h
    next e heq => cases h
    next catParts hcat =>
      intro c hc
      unfold baseFeatures at hc
      rcases List.mem_append.mp hc with hcn | hcc
      · obtain ⟨p, hp, rfl⟩ := List.mem_map.mp hcn
        obtain ⟨b, hb⟩ := mapME_ok_forall _ P.numStats numPart hnum p hp
        cases hr : rget r p.1 with
        | none => rw [hr] at hb; cases hb
        | some v => rfl
      · obtain ⟨p, hp, rfl⟩ := List.mem_map.mp hcc
        obtain ⟨b, hb⟩ := mapME_ok_forall _ P.catStats catParts hcat p hp
        cases hr : rget r p.1 with
        | none => rw [hr] at hb; cases hb
        | some v => rfl

/-- C4.  A prediction record that entirely omits a required base feature
fails validation with a `MissingFeatureError`, while a record that supplies
a category value unseen at training time for a known categorical feature
is encoded as all zeros for that feature's one-hot group and the transform
succeeds rather than raising. -/
theorem missing_feature_and_unknown_category :
    (∀ (P : PreprocessingPipeline) (r : Record) (c : String),
      c ∈ baseFeatures P → rget r c = none →
      ∃ c', transformRecord P r = .error (.missingFeature c')) ∧
    (∀ (P : PreprocessingPipeline) (r : Record) (c : String) (st : CatStat) (v : String),
      (∀ c' ∈ baseFeatures P, (rget r c').isSome) →
      (c, st) ∈ P.catStats → rget r c = some (.str v) → v ∉ st.vocab →
      ∃ row, transformRecord P r = .ok row ∧
        ∀ cat ∈ st.vocab, (c ++ "_" ++ cat, (0 : ℚ)) ∈ row) := by
  constructor
  · intro P r c hc hnone
    cases hres : transformRecord P r with
    | ok row =>
      have hs := transformRecord_ok_requires P r row hres c hc
      rw [hnone] at hs
      cases hs
    | error e =>
      obtain ⟨c', hc'⟩ := transformRecord_error_is_missing P r e hres
      exact ⟨c', by rw [hc']⟩
  · intro P r c st v hall hcs hv hnv
    have hnumok : ∀ p ∈ P.numStats, ∃ b,
        (match rget r p.1 with
          | none => Except.error (PredError.missingFeature p.1)
          | some w => Except.ok (p.1, transformNumCell p.2 w)) = Except.ok b := by
      intro p hp
      have := hall p.1 (by
        unfold baseFeatures
        exact List.mem_append.mpr (Or.inl (List.mem_map_of_mem (·.1) hp)))
      cases hr : rget r p.1 with
      | none => rw [hr] at this; cases this
      | some w => exact ⟨(p.1, transformNumCell p.2 w), rfl⟩
    have hcatok : ∀ p ∈ P.catStats, ∃ g,
        (match rget r p.1 with
          | none => Except.error (PredError.missingFeature p.1)
          | some w => Except.ok (oneHotGroup p.1 p.2 w)) = Except.ok g := by
      intro p hp
      have := hall p.1 (by
        unfold baseFeatures
        exact List.mem_append.mpr (Or.inr (List.mem_map_of_mem (·.1) hp)))
      cases hr : rget r p.1 with
      | none => rw [hr] at this; cases this
      | some w => exact ⟨oneHotGroup p.1 p.2 w, rfl⟩
    obtain ⟨numPart, hnum⟩ := mapME_of_forall_ok _ P.numStats hnumok
    obtain ⟨catParts, hcat⟩ := mapME_of_forall_ok _ P.catStats hcatok
    refine ⟨numPart ++ catParts.flatten, ?_, ?_⟩
    · unfold transformRecord
      rw [hnum, hcat]
    · intro cat hcat_mem
      obtain ⟨g, hg, hfg⟩ := mapME_mem_exists _ P.catStats catParts hcat (c, st) hcs
      rw [hv] at hfg
      injection hfg with hfg
      have hx : (c ++ "_" ++ cat, (0 : ℚ)) ∈ g := by
        rw [← hfg]
        unfold oneHotGroup
        have hne : ¬ catVal (.str v) = cat := by
          intro he
          have hv2 : v = cat := he
          exact hnv (by rw [hv2]; exact hcat_mem)
        have : (c ++ "_" ++ cat, (0 : ℚ))
            = (fun cat => (c ++ "_" ++ cat, if catVal (CellValue.str v) = cat
                then (1 : ℚ) else 0)) cat := by
          simp only [if_neg hne]
        rw [this]
        exact List.mem_map_of_mem _ hcat_mem
      exact List.mem_append.mpr (Or.inr (List.mem_flatten.mpr ⟨g, hg, hx⟩))

unseal Rat.add Rat.sub Rat.mul Rat.inv in
/-- C4 witness (the spec's Scenario B): against the fitted "age"/"region"
pipeline, a record omitting "region" fails with a `MissingFeatureError`,
while a record with the unseen category "East" succeeds with the whole
region one-hot group at zero. -/
theorem missing_feature_and_unknown_category_witness :
    (∃ c', transformRecord pScenB [("age", CellValue.num 1)]
        = .error (.missingFeature c')) ∧
    (∃ row, transformRecord pScenB rEast = .ok row ∧
      ∀ cat ∈ (CatStat.mk ["North", "South"]).vocab,
        ("region" ++ "_" ++ cat, (0 : ℚ)) ∈ row) :=
  ⟨missing_feature_and_unknown_category.1 pScenB [("age", CellValue.num 1)] "region"
     (by decide) (by decide),
   missing_feature_and_unknown_category.2 pScenB rEast "region" ⟨["North", "South"]⟩ "East"
     (by decide) (by decide) (by decide) (by decide)⟩

/-! ## C3: prediction response shape and confidence bounds -/

theorem argmaxP_mem : ∀ (ps : List (String × ℚ)) (p : String × ℚ),
    argmaxP ps = some p → p ∈ ps := by
  intro ps
  induction ps with
  | nil => intro p h; cases h
  | cons q ps ih =>
    intro p h
    unfold argmaxP at h
    cases hrest : argmaxP ps with
    | none =>
      rw [hrest] at h
      injection h with h
      rw [← h]
      exact List.mem_cons_self q ps
    | some q' =>
      rw [hrest] at h
      injection h with h
      by_cases hgt : q'.2 > q.2
      · rw [if_pos hgt] at h
        rw [← h]
        exact List.mem_cons_of_mem q (ih q' hrest)
      · rw [if_neg hgt] at h
        rw [← h]
        exact List.mem_cons_self q ps

/-- Any confidence produced by `predictOne` on a valid estimator lies in
[0, 1]. -/
theorem predictOne_classifier (pipe : PreprocessingPipeline)
    (f : List ℚ → List (String × ℚ)) (r : Record) :
    predictOne ⟨pipe, .classifier f⟩ r =
      match transformRecord pipe r with
      | .error e => .error e
      | .ok row =>
        match argmaxP (f (row.map (·.2))) with
        | none => .error .emptyProbability
        | some lp => .ok (.label lp.1, lp.2) := rfl

theorem predictOne_regressor (pipe : PreprocessingPipeline)
    (f : List ℚ → ℚ) (resid : ℚ) (r : Record) :
    predictOne ⟨pipe, .regressor f resid⟩ r =
      match transformRecord pipe r with
      | .error e => .error e
      | .ok row => .ok (.num (f (row.map (·.2))), 1 / (1 + |resid|)) := rfl

theorem predictOne_conf_bounds (m : PredictModel) (hval : EstValid m.est) (r : Record)
    (pv : PredValue) (cf : ℚ) (h : predictOne m r = .ok (pv, cf)) :
    0 ≤ cf ∧ cf ≤ 1 := by
  obtain ⟨pipe, est⟩ := m
  cases est with
  | classifier f =>
    rw [predictOne_classifier] at h
    split at h
    next e heq => cases h
    next row hrow =>
      split at h
      next heq2 => cases h
      next lp hlp =>
        injection h with h
        injection h with h1 h2
        have hmem := argmaxP_mem _ _ hlp
        have hnn : ∀ p ∈ f (row.map (·.2)), 0 ≤ p.2 := (hval (row.map (·.2))).2.1
        have hsum : ((f (row.map (·.2))).map (·.2)).sum = 1 := (hval (row.map (·.2))).2.2
        constructor
        · rw [← h2]
          exact hnn lp hmem
        · rw [← h2, ← hsum]
          refine List.single_le_sum ?_ _ ?_
          · intro x hx
            obtain ⟨pq, hpq, rfl⟩ := List.mem_map.mp hx
            exact hnn pq hpq
          · exact List.mem_map_of_mem (·.2) hmem
  | regressor f resid =>
    rw [predictOne_regressor] at h
    split at h
    next e heq => cases h
    next row hrow =>
      injection h with h
      injection h with h1 h2
      have hpos : (0 : ℚ) < 1 + |resid| := by
        have := abs_nonneg resid
        linarith
      constructor
      · rw [← h2]
        positivity
      · rw [← h2]
        rw [div_le_one hpos]
        have := abs_nonneg resid
        linarith

/-- C3.  A successful prediction response has exactly one prediction and
one confidence score per input record, in input order (the i-th entries
come from scoring the i-th record), and every confidence score lies
in [0, 1]. -/
theorem prediction_response_shape (m : PredictModel) (records : List Record)
    (resp : PredictionResponse) (hval : EstValid m.est)
    (h : predictBatch m records = .ok resp) :
    resp.predictions.length = records.length ∧
    resp.confidence_scores.length = records.length ∧
    (∀ (i : Nat) (hi : i < records.length) (hp : i < resp.predictions.length)
        (hc : i < resp.confidence_scores.length),
      predictOne m (records.get ⟨i, hi⟩) =
        .ok (resp.predictions.get ⟨i, hp⟩, resp.confidence_scores.get ⟨i, hc⟩)) ∧
    ∀ cs ∈ resp.confidence_scores, 0 ≤ cs ∧ cs ≤ 1 := by
  unfold predictBatch at h
  split at h
  next e heq => cases h
  next prs hprs =>
    injection h with h
    subst h
    refine ⟨?_, ?_, ?_, ?_⟩
    · rw [List.length_map]
      exact mapME_ok_length _ _ _ hprs
    · rw [List.length_map]
      exact mapME_ok_length _ _ _ hprs
    · intro i hi hp hc
      rw [List.length_map] at hp
      have hget := mapME_ok_get _ _ _ hprs i hi hp
      simp only [List.get_eq_getElem, List.getElem_map]
      simp only [List.get_eq_getElem] at hget
      rw [hget]
    · intro cs hcs
      obtain ⟨pr, hpr, rfl⟩ := List.mem_map.mp hcs
      obtain ⟨a, _, hfa⟩ := mapME_ok_mem_rev _ _ _ hprs pr hpr
      obtain ⟨pv, cf⟩ := pr
      exact predictOne_conf_bounds m hval a pv cf hfa

unseal Rat.add Rat.sub Rat.mul Rat.inv in
/-- C3 witness: the constant classifier model on one record yields one
prediction and one confidence, and the confidence 1 lies in [0, 1]. -/
theorem prediction_response_shape_witness :
    EstValid mCls.est ∧
    predictBatch mCls [[("x", CellValue.num 2)]]
      = .ok ⟨[PredValue.label "yes"], [1]⟩ ∧
    ∀ cs ∈ ([1] : List ℚ), 0 ≤ cs ∧ cs ≤ 1 := by
  have hval : EstValid mCls.est := by
    intro vec
    refine ⟨by simp, ?_, by simp⟩
    intro p hp
    rw [List.mem_singleton.mp hp]
    norm_num
  have hb : predictBatch mCls [[("x", CellValue.num 2)]]
      = .ok ⟨[PredValue.label "yes"], [1]⟩ := by decide
  exact ⟨hval, hb,
    (prediction_response_shape mCls [[("x", CellValue.num 2)]] _ hval hb).2.2.2⟩
